import Mathlib

/-!
Shallow embedding of the cisTEM Scipion plugin's 2D-classification
orchestration (`src/cistem/protocols/protocol_refine2d.py`) and of the
movie-alignment error handling (`src/cistem/protocols/protocol_unblur.py`),
together with theorems settling the specification's claims.

Modelling conventions:
* Python `int` is modelled as `ℤ`; Python `float` as `ℚ` (Python 3 true
  division `/` becomes exact rational division, and `round` becomes
  round-half-to-even, which is Python 3's rounding mode).
* File contents are modelled as lists of lines (`List String`, without the
  trailing newline characters).
* Fallible code is modelled with `Except`.
-/

namespace Cistem

/-! ## Resolution-limit ramp (`_calcHighResLimit`) -/

/-- Local variable `reachMaxHighResAtCycle` of `_calcHighResLimit`
(protocol_refine2d.py, lines 848-851), hoisted to a top-level definition.
`iter_total * 3 / 4` is Python 3 true division, hence exact division on ℚ. -/
def reachMaxHighRes (iter_total : ℤ) : ℚ :=
  if 4 ≤ iter_total then (iter_total : ℚ) * 3 / 4 else (iter_total : ℚ)

/-- Model of `_calcHighResLimit(iter_total, highRes1, highRes2)`
(protocol_refine2d.py, lines 844-859).  The function has no
current-iteration parameter; both callers pass `self.finalIter` as
`iter_total`. -/
def calcHighResLimit (iter_total : ℤ) (highRes1 highRes2 : ℚ) : ℚ :=
  if 1 < iter_total then
    if reachMaxHighRes iter_total ≤ (iter_total : ℚ) then highRes2
    else highRes1 + (iter_total : ℚ) / (reachMaxHighRes iter_total - 1) * (highRes2 - highRes1)
  else highRes2

/-! ## Percent-used ramp (`_calcPercUsed`) -/

/-- Model of the inner helper `cap_to_100(perc, maximum)` of `_calcPercUsed`
(protocol_refine2d.py, lines 866-870). -/
def cap_to_100 (perc maximum : ℚ) : ℚ :=
  let p := min perc 100
  if maximum = 100 then p else max p maximum

/-- Model of `_calcPercUsed(iter_total, iter_done, numCls, numParts,
percUsed, autoPerc)` (protocol_refine2d.py, lines 861-894).
`numCls * 300 / numParts * 100.0` is exact on ℚ; the code would raise
`ZeroDivisionError` for `numParts = 0`, so theorems assume `numParts > 0`. -/
def calcPercUsed (iter_total iter_done numCls numParts : ℤ)
    (percUsed : ℚ) (autoPerc : Bool) : ℚ :=
  let minPercUsed := percUsed
  if !autoPerc then max percUsed minPercUsed
  else if iter_total < 10 then 100
  else
    let calculated_perc : ℚ := (numCls : ℚ) * 300 / (numParts : ℚ) * 100
    if iter_total < 20 then
      if iter_done < 5 then cap_to_100 calculated_perc 100
      else if iter_done < iter_total - 5 then cap_to_100 calculated_perc 30
      else 100
    else if iter_total < 30 then
      if iter_done < 10 then cap_to_100 calculated_perc 100
      else if iter_done < iter_total - 5 then cap_to_100 calculated_perc 30
      else 100
    else
      if iter_done < 15 then cap_to_100 calculated_perc 100
      else if iter_done < iter_total - 5 then cap_to_100 calculated_perc 30
      else 100

/-! ### Helper lemmas for the two ramps -/

lemma cap_to_100_hundred (x : ℚ) : cap_to_100 x 100 = min x 100 := by
  simp [cap_to_100]

lemma cap_to_100_thirty (x : ℚ) : cap_to_100 x 30 = max (min x 100) 30 := by
  norm_num [cap_to_100]

lemma cap100_le_cap30 (x : ℚ) : cap_to_100 x 100 ≤ cap_to_100 x 30 := by
  rw [cap_to_100_hundred, cap_to_100_thirty]
  exact le_max_left _ _

lemma cap30_le_100 (x : ℚ) : cap_to_100 x 30 ≤ 100 := by
  rw [cap_to_100_thirty]
  exact max_le (min_le_right _ _) (by norm_num)

/-- With the auto-flag set, `_calcPercUsed` returns one of three values:
100, or `cap_to_100(calculated_perc)`, or `cap_to_100(calculated_perc, 30)`. -/
lemma calcPercUsed_true_cases (T d C P : ℤ) (f : ℚ) :
    calcPercUsed T d C P f true = 100 ∨
    calcPercUsed T d C P f true = cap_to_100 ((C : ℚ) * 300 / (P : ℚ) * 100) 100 ∨
    calcPercUsed T d C P f true = cap_to_100 ((C : ℚ) * 300 / (P : ℚ) * 100) 30 := by
  unfold calcPercUsed
  simp only [Bool.not_true, Bool.false_eq_true, if_false]
  split_ifs <;> simp

/-- A three-branch step schedule `v1 / v2 / 100` keyed on two `d`
thresholds is monotone in `d` whenever `v1 ≤ v2 ≤ 100`. -/
lemma step3_mono {a b d d' : ℤ} {v1 v2 : ℚ} (h12 : v1 ≤ v2) (h2 : v2 ≤ 100)
    (hdd : d ≤ d') :
    (if d < a then v1 else if d < b then v2 else 100) ≤
      (if d' < a then v1 else if d' < b then v2 else 100) := by
  split_ifs <;> linarith

/-! ### Claims C1 and C2: the resolution-limit ramp -/

/-- Claim C1 (code_bug evidence): evaluating `_calcHighResLimit` at the
claim's scenario `T = 25, r1 = 40.0, r2 = 8.0` yields `8.0`, not the
interpolated `40 + 10/17*(8-40) ≈ 21.18` the claim expects for current
iteration `n = 10`; the function takes no current-iteration argument and
its guard compares the total against the plateau, so the interpolation
branch never runs. -/
theorem calcHighResLimit_at_failing_input :
    calcHighResLimit 25 40 8 = 8 := by
  norm_num [calcHighResLimit, reachMaxHighRes]

/-- Claim C2: for every `iter_total ≥ 1` and all `highRes1`, `highRes2`,
`_calcHighResLimit` returns `highRes2`: the guard
`iter_total >= reachMaxHighResAtCycle` holds whenever `iter_total > 1`, so
the linear-interpolation branch is unreachable and the result never
depends on `highRes1`. -/
theorem calcHighResLimit_const (iter_total : ℤ) (h : 1 ≤ iter_total)
    (highRes1 highRes2 : ℚ) :
    calcHighResLimit iter_total highRes1 highRes2 = highRes2 := by
  have hr : reachMaxHighRes iter_total ≤ (iter_total : ℚ) := by
    unfold reachMaxHighRes
    split_ifs with h4
    · have h0 : (0 : ℚ) ≤ (iter_total : ℚ) := by exact_mod_cast le_trans (by norm_num) h
      linarith
    · exact le_refl _
  unfold calcHighResLimit
  by_cases h1 : 1 < iter_total
  · rw [if_pos h1, if_pos hr]
  · rw [if_neg h1]

/-- Witness for C2 at `iter_total = 25`, `highRes1 = 40`, `highRes2 = 8`. -/
theorem calcHighResLimit_const_witness :
    (1 : ℤ) ≤ 25 ∧ calcHighResLimit 25 40 8 = 8 :=
  ⟨by norm_num, calcHighResLimit_const 25 (by norm_num) 40 8⟩

/-! ### Claims C7 and C8: the percent-used ramp -/

/-- Claim C7 (counterexample): with the auto-flag false and a configured
percentage of 150, `_calcPercUsed` returns 150, which is outside `[0, 100]`,
refuting "for every input the returned value lies in [0, 100]". -/
theorem calcPercUsed_above100_cex :
    100 < calcPercUsed 20 0 5 1000 150 false := by
  norm_num [calcPercUsed]

/-- Claim C7 as amended: with the auto-flag false the result equals the
configured floor percentage `f` (so it lies in `[0, 100]` only when `f`
does); with the auto-flag true, class count `≥ 0` and particle count `> 0`,
the result lies in `[0, 100]`; and with the auto-flag true and `T < 10` the
result is 100. -/
theorem calcPercUsed_bounds_amended (T d C P : ℤ) (f : ℚ)
    (hC : 0 ≤ C) (hP : 0 < P) :
    calcPercUsed T d C P f false = f ∧
    (0 ≤ calcPercUsed T d C P f true ∧ calcPercUsed T d C P f true ≤ 100) ∧
    (T < 10 → calcPercUsed T d C P f true = 100) := by
  have hCq : (0 : ℚ) ≤ (C : ℚ) := by exact_mod_cast hC
  have hPq : (0 : ℚ) ≤ (P : ℚ) := by exact_mod_cast le_of_lt hP
  have hcalc : 0 ≤ (C : ℚ) * 300 / (P : ℚ) * 100 := by positivity
  refine ⟨by simp [calcPercUsed], ?_, ?_⟩
  · rcases calcPercUsed_true_cases T d C P f with h | h | h <;> rw [h]
    · norm_num
    · rw [cap_to_100_hundred]
      exact ⟨le_min hcalc (by norm_num), min_le_right _ _⟩
    · rw [cap_to_100_thirty]
      exact ⟨le_trans (by norm_num) (le_max_right _ _),
        max_le (min_le_right _ _) (by norm_num)⟩
  · intro hT
    unfold calcPercUsed
    simp [hT]

/-- Witness for the amended C7 at `T = 15, d = 0, C = 5, P = 1000, f = 30`. -/
theorem calcPercUsed_bounds_amended_witness :
    (0 : ℤ) ≤ 5 ∧ (0 : ℤ) < 1000 ∧
    (calcPercUsed 15 0 5 1000 30 false = 30 ∧
     (0 ≤ calcPercUsed 15 0 5 1000 30 true ∧
      calcPercUsed 15 0 5 1000 30 true ≤ 100) ∧
     ((15 : ℤ) < 10 → calcPercUsed 15 0 5 1000 30 true = 100)) :=
  ⟨by norm_num, by norm_num,
    calcPercUsed_bounds_amended 15 0 5 1000 30 (by norm_num) (by norm_num)⟩

/-- Claim C8: with the auto-flag true and class count and particle count
positive, `_calcPercUsed` is monotonically non-decreasing in the
iterations-completed argument `d` for every fixed total `T` (the tier
selected by `T` against the thresholds 10, 20, 30 is then fixed). -/
theorem calcPercUsed_mono (T C P : ℤ) (f : ℚ) (_hC : 0 < C) (_hP : 0 < P)
    (d d' : ℤ) (hdd : d ≤ d') :
    calcPercUsed T d C P f true ≤ calcPercUsed T d' C P f true := by
  have h12 := cap100_le_cap30 ((C : ℚ) * 300 / (P : ℚ) * 100)
  have h2 := cap30_le_100 ((C : ℚ) * 300 / (P : ℚ) * 100)
  unfold calcPercUsed
  simp only [Bool.not_true, if_false]
  by_cases hT10 : T < 10
  · simp [hT10]
  · rw [if_neg hT10, if_neg hT10]
    by_cases hT20 : T < 20
    · rw [if_pos hT20, if_pos hT20]
      exact step3_mono h12 h2 hdd
    · rw [if_neg hT20, if_neg hT20]
      by_cases hT30 : T < 30
      · rw [if_pos hT30, if_pos hT30]
        exact step3_mono h12 h2 hdd
      · rw [if_neg hT30, if_neg hT30]
        exact step3_mono h12 h2 hdd

/-- Witness for C8 at `T = 25, C = 5, P = 1000, f = 30, d = 7 ≤ d' = 12`. -/
theorem calcPercUsed_mono_witness :
    (0 : ℤ) < 5 ∧ (0 : ℤ) < 1000 ∧ (7 : ℤ) ≤ 12 ∧
    calcPercUsed 25 7 5 1000 30 true ≤ calcPercUsed 25 12 5 1000 30 true :=
  ⟨by norm_num, by norm_num, by norm_num,
    calcPercUsed_mono 25 5 1000 30 (by norm_num) (by norm_num) 7 12 (by norm_num)⟩

/-! ## Parallel job-block dispatcher (`_getJobsParams`, `prepareRefineStep`) -/

/-- Python 3 `round` on an exact rational: round half to even. -/
def pyRound (q : ℚ) : ℤ :=
  if q - ⌊q⌋ < 1/2 then ⌊q⌋
  else if 1/2 < q - ⌊q⌋ then ⌊q⌋ + 1
  else if ⌊q⌋ % 2 = 0 then ⌊q⌋ else ⌊q⌋ + 1

/-- Model of the `ptcls_per_job` computation of `_getJobsParams`
(protocol_refine2d.py, lines 636-645).  `jobs = max(threads, mpi)` and
`parts` (the particle count) are taken as arguments; `parts / jobs` is
Python true division and `round` is Python 3 rounding.  The result is an
integer (the degenerate branch yields `1.0` and `int()` applied later by
`prepareRefineStep` is the identity on these values), so it is ℤ here. -/
def ptclsPerJob (parts jobs : ℤ) : ℤ :=
  if parts - jobs < jobs then 1
  else pyRound ((parts : ℚ) / (jobs : ℚ))

/-- Model of the block-range computation of `prepareRefineStep`
(protocol_refine2d.py, lines 407-419): given the shared counter
`self.currPtcl`, return the block's `(firstPart, lastPart)` and the updated
counter.  Block 1 is special-cased and, unlike later blocks, its `lastPart`
is not clipped to the particle count. -/
def prepareRefineStep (numPtcls p : ℤ) (job : ℕ) (currPtcl : ℤ) :
    (ℤ × ℤ) × ℤ :=
  if job = 1 then
    ((1, 1 + p), (1 + p) + 1)
  else
    let firstPart := currPtcl
    let lastPart0 := firstPart + p
    let lastPart := if numPtcls < lastPart0 then numPtcls else lastPart0
    ((firstPart, lastPart), lastPart + 1)

/-- Successive `prepareRefineStep` calls for `n` jobs starting at index
`job`, threading the `currPtcl` counter and collecting the block ranges
(`refineParallelStep`, protocol_refine2d.py, lines 448-457, loops
`job = 1 .. jobs`). -/
def blocksAux (numPtcls p : ℤ) : ℕ → ℕ → ℤ → List (ℤ × ℤ)
  | 0, _, _ => []
  | n + 1, job, curr =>
    (prepareRefineStep numPtcls p job curr).1 ::
      blocksAux numPtcls p n (job + 1) (prepareRefineStep numPtcls p job curr).2

/-- All block ranges of one iteration: jobs `1 .. jobs` with `currPtcl`
initialised to 1 (`_insertItersSteps`, protocol_refine2d.py, line 288). -/
def blocks (parts jobs : ℤ) : List (ℤ × ℤ) :=
  blocksAux parts (ptclsPerJob parts jobs) jobs.toNat 1 1

/-- The blocks produced for jobs 2, 3, …: every call takes the non-first
branch of `prepareRefineStep`.  Analysis helper. -/
def restBlocks (numPtcls p : ℤ) : ℕ → ℤ → List (ℤ × ℤ)
  | 0, _ => []
  | n + 1, curr =>
    (curr, if numPtcls < curr + p then numPtcls else curr + p) ::
      restBlocks numPtcls p n
        ((if numPtcls < curr + p then numPtcls else curr + p) + 1)

/-- Last particle index covered after `n` further blocks starting at
`curr`.  Analysis helper. -/
def coverEnd (numPtcls p : ℤ) : ℕ → ℤ → ℤ
  | 0, curr => curr - 1
  | n + 1, curr =>
    coverEnd numPtcls p n
      ((if numPtcls < curr + p then numPtcls else curr + p) + 1)

/-- Number of blocks whose `[firstPart, lastPart]` range contains `i`. -/
def countContaining (i : ℤ) (bs : List (ℤ × ℤ)) : ℕ :=
  bs.countP (fun b => decide (b.1 ≤ i ∧ i ≤ b.2))

/-! ### Helper lemmas for the dispatcher -/

lemma pyRound_intCast (n : ℤ) : pyRound (n : ℚ) = n := by
  unfold pyRound
  rw [Int.floor_intCast]
  simp

lemma le_pyRound (q : ℚ) : q - 1/2 ≤ (pyRound q : ℚ) := by
  have hf := Int.floor_le q
  have hc := Int.lt_floor_add_one q
  unfold pyRound
  split_ifs <;> push_cast <;> linarith

lemma pyRound_le (q : ℚ) : (pyRound q : ℚ) ≤ q + 1/2 := by
  have hf := Int.floor_le q
  have hc := Int.lt_floor_add_one q
  unfold pyRound
  split_ifs <;> push_cast <;> linarith

lemma ptclsPerJob_1000_4 : ptclsPerJob 1000 4 = 250 := by
  unfold ptclsPerJob
  rw [if_neg (by norm_num)]
  have h : ((1000 : ℤ) : ℚ) / ((4 : ℤ) : ℚ) = ((250 : ℤ) : ℚ) := by norm_num
  rw [h, pyRound_intCast]

lemma ptclsPerJob_1000_1 : ptclsPerJob 1000 1 = 1000 := by
  unfold ptclsPerJob
  rw [if_neg (by norm_num)]
  have h : ((1000 : ℤ) : ℚ) / ((1 : ℤ) : ℚ) = ((1000 : ℤ) : ℚ) := by norm_num
  rw [h, pyRound_intCast]

lemma blocks_1000_4 :
    blocks 1000 4 = [(1, 251), (252, 502), (503, 753), (754, 1000)] := by
  unfold blocks
  rw [ptclsPerJob_1000_4]
  decide

lemma blocks_1000_1 : blocks 1000 1 = [(1, 1001)] := by
  unfold blocks
  rw [ptclsPerJob_1000_1]
  decide

lemma countContaining_nil (i : ℤ) : countContaining i [] = 0 := rfl

lemma countContaining_cons (i : ℤ) (b : ℤ × ℤ) (bs : List (ℤ × ℤ)) :
    countContaining i (b :: bs) =
      countContaining i bs + (if b.1 ≤ i ∧ i ≤ b.2 then 1 else 0) := by
  simp [countContaining, List.countP_cons]

lemma blocksAux_ge2 (numPtcls p : ℤ) :
    ∀ (n : ℕ) (job : ℕ) (curr : ℤ), 2 ≤ job →
      blocksAux numPtcls p n job curr = restBlocks numPtcls p n curr := by
  intro n
  induction n with
  | zero => intro job curr _; rfl
  | succ n ih =>
    intro job curr hjob
    have hj1 : ¬(job = 1) := by omega
    simp only [blocksAux, restBlocks, prepareRefineStep, if_neg hj1]
    exact congrArg _ (ih (job + 1) _ (by omega))

lemma prepareRefineStep_one (numPtcls p curr : ℤ) :
    prepareRefineStep numPtcls p 1 curr = ((1, 1 + p), 1 + p + 1) := rfl

lemma blocks_eq_cons (parts jobs : ℤ) (h : 1 ≤ jobs) :
    blocks parts jobs =
      (1, 1 + ptclsPerJob parts jobs) ::
        restBlocks parts (ptclsPerJob parts jobs) (jobs.toNat - 1)
          (1 + ptclsPerJob parts jobs + 1) := by
  unfold blocks
  obtain ⟨n, hn⟩ : ∃ n, jobs.toNat = n + 1 := ⟨jobs.toNat - 1, by omega⟩
  rw [hn]
  simp only [blocksAux, prepareRefineStep_one, Nat.add_sub_cancel]
  rw [blocksAux_ge2 _ _ n 2 _ (by omega)]

lemma coverEnd_eq (numPtcls p : ℤ) (hp : 0 ≤ p) :
    ∀ (n : ℕ) (curr : ℤ), curr ≤ numPtcls + 1 →
      coverEnd numPtcls p n curr = min (curr - 1 + n * (p + 1)) numPtcls := by
  intro n
  induction n with
  | zero =>
    intro curr h
    simp only [coverEnd, Nat.cast_zero, zero_mul, add_zero]
    rw [min_eq_left (by omega)]
  | succ n ih =>
    intro curr h
    have hq : 0 ≤ (n : ℤ) * (p + 1) := mul_nonneg (by positivity) (by omega)
    have hrw : ((n : ℕ) + 1 : ℤ) * (p + 1) = (n : ℤ) * (p + 1) + (p + 1) := by
      ring
    simp only [coverEnd]
    by_cases hc : numPtcls < curr + p
    · rw [if_pos hc, ih (numPtcls + 1) (by omega)]
      push_cast
      rw [hrw]
      generalize (n : ℤ) * (p + 1) = q at hq ⊢
      rw [min_def, min_def]
      split_ifs <;> omega
    · rw [if_neg hc, ih (curr + p + 1) (by omega)]
      push_cast
      rw [hrw]
      generalize (n : ℤ) * (p + 1) = q at hq ⊢
      rw [min_def, min_def]
      split_ifs <;> omega

lemma countContaining_restBlocks (numPtcls p : ℤ) (hp : 0 ≤ p) :
    ∀ (n : ℕ) (curr : ℤ), curr ≤ numPtcls + 1 → ∀ i : ℤ,
      countContaining i (restBlocks numPtcls p n curr) =
        if curr ≤ i ∧ i ≤ coverEnd numPtcls p n curr then 1 else 0 := by
  intro n
  induction n with
  | zero =>
    intro curr h i
    simp only [restBlocks, countContaining_nil, coverEnd]
    split_ifs with hx
    · omega
    · rfl
  | succ n ih =>
    intro curr h i
    have hq : 0 ≤ (n : ℤ) * (p + 1) := mul_nonneg (by positivity) (by omega)
    by_cases hc : numPtcls < curr + p
    · simp only [restBlocks, coverEnd, if_pos hc]
      have hEeq : coverEnd numPtcls p n (numPtcls + 1) = numPtcls := by
        rw [coverEnd_eq numPtcls p hp n (numPtcls + 1) (by omega), min_def]
        generalize (n : ℤ) * (p + 1) = q at hq ⊢
        split_ifs <;> omega
      rw [countContaining_cons, ih (numPtcls + 1) (by omega) i, hEeq]
      dsimp only
      split_ifs <;> omega
    · simp only [restBlocks, coverEnd, if_neg hc]
      have hEge : curr + p ≤ coverEnd numPtcls p n (curr + p + 1) := by
        rw [coverEnd_eq numPtcls p hp n (curr + p + 1) (by omega), min_def]
        generalize (n : ℤ) * (p + 1) = q at hq ⊢
        split_ifs <;> omega
      rw [countContaining_cons, ih (curr + p + 1) (by omega) i]
      dsimp only
      split_ifs <;> omega

/-- Size estimates on `ptcls_per_job` for `parts ≥ 2`, `jobs ≥ 2`: it is at
least 1, block 1 (which ends at `1 + ptcls_per_job`) stays within the
particle count, and `jobs` blocks of `ptcls_per_job + 1` particles cover
the whole range. -/
lemma ptclsPerJob_bounds (parts jobs : ℤ) (hP : 2 ≤ parts) (hJ : 2 ≤ jobs) :
    1 ≤ ptclsPerJob parts jobs ∧ 1 + ptclsPerJob parts jobs ≤ parts ∧
      parts + 1 ≤ jobs * (ptclsPerJob parts jobs + 1) := by
  unfold ptclsPerJob
  split_ifs with hdeg
  · exact ⟨by norm_num, by omega, by nlinarith⟩
  · have hnd : 2 * jobs ≤ parts := by omega
    have hJ0 : (0 : ℚ) < (jobs : ℚ) := by
      exact_mod_cast lt_of_lt_of_le (by norm_num) hJ
    have hJ2 : (2 : ℚ) ≤ (jobs : ℚ) := by exact_mod_cast hJ
    set q : ℚ := (parts : ℚ) / (jobs : ℚ) with hqdef
    set p : ℤ := pyRound q with hpdef
    have hqmul : q * (jobs : ℚ) = (parts : ℚ) := div_mul_cancel₀ _ (ne_of_gt hJ0)
    have hub := pyRound_le q
    have hlb := le_pyRound q
    have hq2 : (2 : ℚ) ≤ q := by
      rw [hqdef, le_div_iff₀ hJ0]
      exact_mod_cast by linarith
    have hp1 : 1 ≤ p := by
      have h1 : (1 : ℚ) ≤ (p : ℚ) := by linarith
      exact_mod_cast h1
    have hqhalf : q ≤ (parts : ℚ) / 2 := by
      rw [le_div_iff₀ (by norm_num : (0 : ℚ) < 2)]
      have h2q : q * 2 ≤ q * (jobs : ℚ) :=
        mul_le_mul_of_nonneg_left hJ2 (by linarith)
      linarith [hqmul]
    have h2p : 2 * p ≤ parts + 1 := by
      have h2 : (2 : ℚ) * (p : ℚ) ≤ (parts : ℚ) + 1 := by linarith
      exact_mod_cast h2
    have hmid : 1 + p ≤ parts := by omega
    have hcov : parts + 1 ≤ jobs * (p + 1) := by
      have hmul : (q - 1/2) * (jobs : ℚ) ≤ (p : ℚ) * (jobs : ℚ) :=
        mul_le_mul_of_nonneg_right hlb (le_of_lt hJ0)
      have hx : (q - 1/2) * (jobs : ℚ) = (parts : ℚ) - (jobs : ℚ) / 2 := by
        rw [sub_mul, hqmul]; ring
      have hy : (jobs : ℚ) * ((p : ℚ) + 1) = (p : ℚ) * (jobs : ℚ) + (jobs : ℚ) := by
        ring
      have hz : (parts : ℚ) + 1 ≤ (jobs : ℚ) * ((p : ℚ) + 1) := by linarith
      exact_mod_cast hz
    exact ⟨hp1, hmid, hcov⟩

lemma restBlocks_get_zero (numPtcls p : ℤ) (n : ℕ) (curr : ℤ) (b : ℤ × ℤ)
    (hb : (restBlocks numPtcls p n curr)[0]? = some b) :
    b = (curr, if numPtcls < curr + p then numPtcls else curr + p) := by
  cases n with
  | zero => simp [restBlocks] at hb
  | succ n =>
    simp only [restBlocks, List.getElem?_cons_zero, Option.some.injEq] at hb
    exact hb.symm

lemma restBlocks_adj (numPtcls p : ℤ) :
    ∀ (n : ℕ) (curr : ℤ) (k : ℕ) (b b' : ℤ × ℤ),
      (restBlocks numPtcls p n curr)[k]? = some b →
      (restBlocks numPtcls p n curr)[k + 1]? = some b' →
      b'.1 = b.2 + 1 ∧
        b'.2 = if numPtcls < b'.1 + p then numPtcls else b'.1 + p := by
  intro n
  induction n with
  | zero => intro curr k b b' hb _; simp [restBlocks] at hb
  | succ n ih =>
    intro curr k b b' hb hb'
    cases k with
    | zero =>
      simp only [restBlocks, List.getElem?_cons_zero, Option.some.injEq] at hb
      simp only [restBlocks, List.getElem?_cons_succ] at hb'
      have hb'eq := restBlocks_get_zero numPtcls p n _ b' hb'
      subst hb
      rw [hb'eq]
      exact ⟨rfl, rfl⟩
    | succ k =>
      simp only [restBlocks, List.getElem?_cons_succ] at hb hb'
      exact ih _ k b b' hb hb'

/-! ### Claims C3 and C4: the job-block partition -/

/-- Claim C3 (counterexample): with `P = 1000` particles and `J = 1` job the
single block is `[1, 1001]`, so index 1001 — outside `[1, P]` — lies in one
block: the blocks do not exactly partition `[1, P]` and the block extends
past `P` (block 1 is never clipped). -/
theorem blocks_overshoot_cex :
    ¬(countContaining 1001 (blocks 1000 1) =
        if (1 : ℤ) ≤ 1001 ∧ (1001 : ℤ) ≤ 1000 then 1 else 0) := by
  rw [blocks_1000_1]
  decide

/-- Claim C3 as amended: for every particle count `P ≥ 2` and job count
`J ≥ 2` the block ranges exactly partition `[1, P]`: an index lies in
exactly one block's `[firstPart, lastPart]` range when it is in `[1, P]`
and in none otherwise (no overlap, no gap, no block past `P`).  For `J = 1`
or `P = 1` the unclipped first block extends past `P`. -/
theorem blocks_partition (P J : ℤ) (hP : 2 ≤ P) (hJ : 2 ≤ J) (i : ℤ) :
    countContaining i (blocks P J) = if 1 ≤ i ∧ i ≤ P then 1 else 0 := by
  obtain ⟨hp1, hmid, hcov⟩ := ptclsPerJob_bounds P J hP hJ
  set p : ℤ := ptclsPerJob P J with hpdef
  have hJn : ((J.toNat - 1 : ℕ) : ℤ) = J - 1 := by omega
  rw [blocks_eq_cons P J (by omega), countContaining_cons,
    countContaining_restBlocks P p (by omega) _ _ (by omega) i,
    coverEnd_eq P p (by omega) _ _ (by omega), hJn]
  have hEeq : min (1 + p + 1 - 1 + (J - 1) * (p + 1)) P = P := by
    have hr : 1 + p + 1 - 1 + (J - 1) * (p + 1) = J * (p + 1) := by ring
    rw [hr, min_def]
    split_ifs <;> omega
  rw [hEeq]
  dsimp only
  split_ifs <;> omega

/-- Witness for the amended C3 at `P = 1000`, `J = 4`, `i = 500`. -/
theorem blocks_partition_witness :
    (2 : ℤ) ≤ 1000 ∧ (2 : ℤ) ≤ 4 ∧
      countContaining 500 (blocks 1000 4) =
        if (1 : ℤ) ≤ 500 ∧ (500 : ℤ) ≤ 1000 then 1 else 0 :=
  ⟨by norm_num, by norm_num,
    blocks_partition 1000 4 (by norm_num) (by norm_num) 500⟩

/-- Claim C4 (counterexample): for `particles = 1000`, `jobs = 4` the blocks
are `[1,251], [252,502], [503,753], [754,1000]`, not the claimed
`[1,251], [251,501], [501,751], [751,1000]`: block `k > 1` starts at
`prevEnd + 1`, not at `prevEnd`. -/
theorem blocks_scenario_cex :
    blocks 1000 4 ≠ [(1, 251), (251, 501), (501, 751), (751, 1000)] := by
  rw [blocks_1000_4]
  decide

/-- Claim C4 as amended: block 1 covers `[1, 1 + particlesPerJob]`; each
block `k > 1` covers `[prevEnd + 1, prevEnd + 1 + particlesPerJob]`,
clipped to the particle count (on every non-first block); for
`particles = 1000`, `jobs = 4` the four blocks are
`[1,251], [252,502], [503,753], [754,1000]`. -/
theorem blocks_boundaries_amended (P J : ℤ) (hJ : 1 ≤ J) :
    (blocks P J).head? = some (1, 1 + ptclsPerJob P J) ∧
    (∀ (k : ℕ) (b b' : ℤ × ℤ),
      (blocks P J)[k]? = some b → (blocks P J)[k + 1]? = some b' →
      b'.1 = b.2 + 1 ∧
        b'.2 = if P < b'.1 + ptclsPerJob P J then P
          else b'.1 + ptclsPerJob P J) ∧
    blocks 1000 4 = [(1, 251), (252, 502), (503, 753), (754, 1000)] := by
  refine ⟨?_, ?_, blocks_1000_4⟩
  · rw [blocks_eq_cons P J hJ]; rfl
  · intro k b b' hb hb'
    rw [blocks_eq_cons P J hJ] at hb hb'
    cases k with
    | zero =>
      simp only [List.getElem?_cons_zero, Option.some.injEq] at hb
      simp only [List.getElem?_cons_succ] at hb'
      have hb'eq := restBlocks_get_zero P (ptclsPerJob P J) _ _ b' hb'
      subst hb
      rw [hb'eq]
      exact ⟨rfl, rfl⟩
    | succ k =>
      simp only [List.getElem?_cons_succ] at hb hb'
      exact restBlocks_adj P (ptclsPerJob P J) _ _ k b b' hb hb'

/-- Witness for the amended C4 at `P = 1000`, `J = 4`. -/
theorem blocks_boundaries_amended_witness :
    (1 : ℤ) ≤ 4 ∧
      ((blocks 1000 4).head? = some (1, 1 + ptclsPerJob 1000 4) ∧
       (∀ (k : ℕ) (b b' : ℤ × ℤ),
         (blocks 1000 4)[k]? = some b → (blocks 1000 4)[k + 1]? = some b' →
         b'.1 = b.2 + 1 ∧
           b'.2 = if (1000 : ℤ) < b'.1 + ptclsPerJob 1000 4 then 1000
             else b'.1 + ptclsPerJob 1000 4) ∧
       blocks 1000 4 = [(1, 251), (252, 502), (503, 753), (754, 1000)]) :=
  ⟨by norm_num, blocks_boundaries_amended 1000 4 (by norm_num)⟩

/-! ## Parameter-table merger (`_mergeAllParFiles`) -/

/-- Model of Python `l.startswith('C')` for a line `l`: true iff the first
character is `C`.  (A one-character prefix test is exactly a first-character
test; `String.startsWith` itself does not reduce in the kernel, so the model
matches on the character list.) -/
def startswithC (l : String) : Bool :=
  match l.data with
  | [] => false
  | c :: _ => c = 'C'

/-- The fixed-width header line written by `writeInitParStep`
(protocol_refine2d.py, lines 362-364) and by `_mergeAllParFiles`
(lines 813-815), without the trailing newline. -/
def headerLine : String :=
  "C           PSI   THETA     PHI       SHX       SHY     MAG  FILM      DF1      DF2  ANGAST  PSHIFT     OCC      LogP      SIGMA   SCORE  CHANGE"

/-- The lines of a parameter file that the merge loop copies: those with
`not l.startswith('C')` (protocol_refine2d.py, lines 823-825). -/
def dataRows (f : List String) : List String :=
  f.filter (fun l => !(startswithC l))

/-- Model of `_mergeAllParFiles(iterN, numberOfBlocks)` (protocol_refine2d.py,
lines 805-833), content view: input is the list of block-file contents (as
line lists), output the merged file's content.  For `numberOfBlocks != 1`
the code writes the header and then every non-header line of each block in
order; for a single block it moves the block file into place, so the output
is that file's content unchanged. -/
def mergeAllParFiles (numberOfBlocks : ℕ) (blockFiles : List (List String)) :
    List String :=
  if numberOfBlocks ≠ 1 then
    headerLine :: (blockFiles.map dataRows).flatten
  else (blockFiles.head?).getD []

/-- Block parameter filename from the `iter_par_block` template
(protocol_refine2d.py, line 76). -/
def iterParBlockFn (iterN : ℤ) (block : ℕ) : String :=
  "Refine2D/Parameters/classification_input_par_" ++ toString iterN ++ "_" ++
    toString block ++ ".par"

/-- Message of the `FileNotFoundError` raised by `_mergeAllParFiles`
(protocol_refine2d.py, line 820). -/
def missingFileMsg (iterN : ℤ) (block : ℕ) : String :=
  "Error: file " ++ iterParBlockFn iterN block ++ " does not exist"

/-- The merge loop of `_mergeAllParFiles` (protocol_refine2d.py,
lines 816-827) over the files of blocks `k, k+1, …`; `none` models a
missing block file.  On success it returns the concatenated non-header
rows together with the post-loop file state (each consumed block file is
deleted by `cleanPattern`, modelled by `none`); the first missing file
raises `FileNotFoundError` with a message naming it. -/
def mergeBlocksRun (iterN : ℤ) :
    ℕ → List (Option (List String)) →
      Except String (List String × List (Option (List String)))
  | _, [] => Except.ok ([], [])
  | k, none :: _ => Except.error (missingFileMsg iterN k)
  | k, some f :: rest =>
    match mergeBlocksRun iterN (k + 1) rest with
    | Except.error e => Except.error e
    | Except.ok (rows, fs) => Except.ok (dataRows f ++ rows, none :: fs)

/-- Model of `_mergeAllParFiles` with possibly-missing block files.  For
`numberOfBlocks != 1` the loop above runs and the header is prepended to
its rows; for one block the file is moved into place (a missing single
block file would equally make `moveFile` raise a file-not-found error). -/
def mergeAllParFilesExc (iterN : ℤ) (numberOfBlocks : ℕ)
    (blockFiles : List (Option (List String))) :
    Except String (List String × List (Option (List String))) :=
  if numberOfBlocks ≠ 1 then
    match mergeBlocksRun iterN 1 blockFiles with
    | Except.error e => Except.error e
    | Except.ok (rows, fs) => Except.ok (headerLine :: rows, fs)
  else
    match blockFiles with
    | some f :: rest => Except.ok (f, none :: rest)
    | _ => Except.error (missingFileMsg iterN 1)

/-! ### Helper lemmas for the merger -/

lemma headerLine_startsWith : startswithC headerLine = true := by decide

lemma dataRows_not_header {l : String} {f : List String}
    (hl : l ∈ dataRows f) : startswithC l = false := by
  have := List.mem_filter.mp hl
  simpa using this.2

lemma dataRows_cons (a : String) (l : List String) :
    dataRows (a :: l) =
      if startswithC a then dataRows l else a :: dataRows l := by
  unfold dataRows
  rw [List.filter_cons]
  cases h : startswithC a <;> simp [h]

lemma dataRows_eq_self {l : List String} (h : ∀ a ∈ l, startswithC a = false) :
    dataRows l = l := by
  unfold dataRows
  rw [List.filter_eq_self]
  intro a ha
  simp [h a ha]

lemma mergeBlocksRun_error (iterN : ℤ) :
    ∀ (files : List (Option (List String))) (k : ℕ),
      (∃ j : ℕ, files[j]? = some none) →
      ∃ jm : ℕ,
        mergeBlocksRun iterN k files =
          Except.error (missingFileMsg iterN (k + jm)) ∧
        files[jm]? = some none ∧ ∀ j : ℕ, j < jm → files[j]? ≠ some none := by
  intro files
  induction files with
  | nil =>
    intro k hj
    obtain ⟨j, hj⟩ := hj
    simp at hj
  | cons hd rest ih =>
    intro k hj
    cases hd with
    | none =>
      refine ⟨0, ?_, by simp, by omega⟩
      simp [mergeBlocksRun]
    | some f =>
      have hre : ∃ j : ℕ, rest[j]? = some none := by
        obtain ⟨j, hj⟩ := hj
        cases j with
        | zero => simp at hj
        | succ j => exact ⟨j, by simpa using hj⟩
      obtain ⟨jm, hrun, hjm, hmin⟩ := ih (k + 1) hre
      refine ⟨jm + 1, ?_, by simpa using hjm, ?_⟩
      · have harg : k + 1 + jm = k + (jm + 1) := by omega
        simp only [mergeBlocksRun, hrun, harg]
      · intro j hjlt
        cases j with
        | zero => simp
        | succ j => simpa using hmin j (by omega)

lemma mergeBlocksRun_ok (iterN : ℤ) :
    ∀ (files : List (Option (List String))) (k : ℕ),
      (∀ f ∈ files, f ≠ none) →
      ∃ rows, mergeBlocksRun iterN k files =
        Except.ok (rows, List.replicate files.length none) := by
  intro files
  induction files with
  | nil => intro k _; exact ⟨[], rfl⟩
  | cons hd rest ih =>
    intro k hall
    cases hd with
    | none => exact absurd rfl (hall none (by simp))
    | some f =>
      obtain ⟨rows, hrun⟩ := ih (k + 1) (fun g hg => hall g (by simp [hg]))
      refine ⟨dataRows f ++ rows, ?_⟩
      simp [mergeBlocksRun, hrun, List.replicate_succ]

/-! ### Claims C5 and C6: merging block parameter files -/

/-- Claim C5: merging with `numberOfBlocks = 1` is equivalent to renaming
the single block file; with `J > 1` blocks the merged file is the header
followed by the blocks' non-header rows in block order, the header-style
line occurs exactly once (at the top), and the data-row count is the sum of
the blocks' data-row counts. -/
theorem mergeAllParFiles_spec (J : ℕ) (files : List (List String))
    (hlen : files.length = J) :
    (J = 1 → ∀ b, files = [b] → mergeAllParFiles J files = b) ∧
    (1 < J →
      mergeAllParFiles J files = headerLine :: (files.map dataRows).flatten ∧
      (mergeAllParFiles J files).countP (fun l => startswithC l) = 1 ∧
      (dataRows (mergeAllParFiles J files)).length =
        (files.map (fun f => (dataRows f).length)).sum) := by
  constructor
  · rintro hJ b rfl
    simp [mergeAllParFiles, hJ]
  · intro hJ
    have hne : J ≠ 1 := by omega
    have heq : mergeAllParFiles J files =
        headerLine :: (files.map dataRows).flatten := by
      simp [mergeAllParFiles, hne]
    have hflat : ∀ a ∈ (files.map dataRows).flatten, startswithC a = false := by
      intro a ha
      obtain ⟨s, hs, has⟩ := List.mem_flatten.mp ha
      obtain ⟨g, _, rfl⟩ := List.mem_map.mp hs
      exact dataRows_not_header has
    refine ⟨heq, ?_, ?_⟩
    · rw [heq, List.countP_cons]
      have hjoin : (files.map dataRows).flatten.countP
          (fun l => startswithC l) = 0 := by
        rw [List.countP_eq_zero]
        intro a ha
        simp [hflat a ha]
      simp [hjoin, headerLine_startsWith]
    · rw [heq, dataRows_cons, if_pos headerLine_startsWith,
        dataRows_eq_self hflat, List.length_flatten, List.map_map]
      rfl

/-- Witness for C5 at `J = 2` with two two-line block files. -/
theorem mergeAllParFiles_spec_witness :
    (([[headerLine, "  1"], [headerLine, "  2"]] : List (List String)).length
        = 2) ∧
    (((2 : ℕ) = 1 → ∀ b,
        ([[headerLine, "  1"], [headerLine, "  2"]] : List (List String)) = [b] →
        mergeAllParFiles 2 [[headerLine, "  1"], [headerLine, "  2"]] = b) ∧
     (1 < 2 →
       mergeAllParFiles 2 [[headerLine, "  1"], [headerLine, "  2"]] =
         headerLine ::
           (([[headerLine, "  1"], [headerLine, "  2"]] :
             List (List String)).map dataRows).flatten ∧
       (mergeAllParFiles 2 [[headerLine, "  1"], [headerLine, "  2"]]).countP
           (fun l => startswithC l) = 1 ∧
       (dataRows (mergeAllParFiles 2
           [[headerLine, "  1"], [headerLine, "  2"]])).length =
         (([[headerLine, "  1"], [headerLine, "  2"]] :
           List (List String)).map (fun f => (dataRows f).length)).sum)) :=
  ⟨rfl, mergeAllParFiles_spec 2 [[headerLine, "  1"], [headerLine, "  2"]] rfl⟩

/-- Claim C6: with more than one block, if some expected block file is
missing, `_mergeAllParFiles` fails with a `FileNotFoundError` whose message
names the first missing block file (block index `km + 1` since blocks are
1-based) instead of producing a merged output; when all block files exist
it succeeds with the header on top and deletes every block file. -/
theorem mergeAllParFilesExc_missing (iterN : ℤ) (J : ℕ)
    (files : List (Option (List String))) (hJ : 1 < J)
    (hlen : files.length = J) :
    ((∃ k : ℕ, files[k]? = some none) →
      ∃ km : ℕ,
        mergeAllParFilesExc iterN J files =
          Except.error (missingFileMsg iterN (km + 1)) ∧
        files[km]? = some none ∧
        ∀ j : ℕ, j < km → files[j]? ≠ some none) ∧
    ((∀ f ∈ files, f ≠ none) →
      ∃ rows, mergeAllParFilesExc iterN J files =
        Except.ok (headerLine :: rows, List.replicate J none)) := by
  have hne : J ≠ 1 := by omega
  constructor
  · intro hex
    obtain ⟨km, hrun, hkm, hmin⟩ := mergeBlocksRun_error iterN files 1 hex
    refine ⟨km, ?_, hkm, hmin⟩
    have harg : 1 + km = km + 1 := by omega
    simp only [mergeAllParFilesExc, if_pos hne, hrun, harg]
  · intro hall
    obtain ⟨rows, hrun⟩ := mergeBlocksRun_ok iterN files 1 hall
    refine ⟨rows, ?_⟩
    simp only [mergeAllParFilesExc, if_pos hne, hrun, hlen]

/-- Witness for C6 at iteration 3 with two blocks, block 2's file missing:
the merge fails naming block 2's file. -/
theorem mergeAllParFilesExc_missing_witness :
    ∃ km : ℕ,
      mergeAllParFilesExc 3 2 [some [], none] =
        Except.error (missingFileMsg 3 (km + 1)) ∧
      ([some [], none] : List (Option (List String)))[km]? = some none ∧
      ∀ j : ℕ, j < km →
        ([some [], none] : List (Option (List String)))[j]? ≠ some none :=
  (mergeAllParFilesExc_missing 3 2 [some [], none] (by norm_num) rfl).1 ⟨1, rfl⟩

/-! ## Continuation logic (`_insertContinueStep`, `continueStep`) -/

/-- Files of a Refine2D run that the continuation step touches: the
particle stack (`run_stack`, run 0), an iteration's parameter table
(`iter_par`) and its class-average stack (`iter_cls`)
(protocol_refine2d.py, lines 71-79). -/
inductive FileRef
  | run_stack
  | iter_par (i : ℤ)
  | iter_cls (i : ℤ)
  deriving DecidableEq

/-- A file-system action of the continuation step: `link` models
`createLink` (a link from the previous run's file into the new run),
`copy` models copying a file — `continueStep` never copies. -/
inductive FsAction
  | link (f : FileRef)
  | copy (f : FileRef)
  deriving DecidableEq

/-- Model of `_getIterNumber(-1)` as used by `_lastIter`
(protocol_refine2d.py, lines 647-663): `found` is the list of iteration
numbers the regex extracts from the globbed parameter filenames; the code
sorts them and takes the element at Python index `-1`, the last. -/
def getIterNumberLast (found : List ℤ) : Option ℤ :=
  if found.isEmpty then none
  else (found.insertionSort (· ≤ ·)).getLast?

/-- Model of the `initIter` resolution of `_insertContinueStep`
(protocol_refine2d.py, lines 275-278): `none` models
`continueIter = 'last'` (use the previous run's last completed iteration),
`some k` an explicit iteration number; either way the run starts at the
resolved iteration plus one. -/
def resolveInitIter (continueIter : Option ℤ) (lastIterPrev : ℤ) : ℤ :=
  match continueIter with
  | none => lastIterPrev + 1
  | some k => k + 1

/-- Model of `continueStep(iterN)` (protocol_refine2d.py, lines 325-340):
`iterN -= 1`, then the previous run's particle stack and that iteration's
parameter table and class-average stack are linked — `createLink`, not a
copy — into the new run's directory, in this order. -/
def continueStepActions (iterN : ℤ) : List FsAction :=
  [FsAction.link FileRef.run_stack,
   FsAction.link (FileRef.iter_par (iterN - 1)),
   FsAction.link (FileRef.iter_cls (iterN - 1))]

/-- Model of `_allItersN` (protocol_refine2d.py, lines 616-619):
`range(initIter, finalIter)`, the iteration indices the run executes. -/
def allItersN (initIter finalIter : ℤ) : List ℤ :=
  (List.range (finalIter - initIter).toNat).map (fun k => initIter + (k : ℤ))

/-! ### Helper lemmas for the continuation logic -/

lemma sorted_le_getLast :
    ∀ (L : List ℤ), L.Sorted (· ≤ ·) → ∀ (h : L ≠ []) (x : ℤ), x ∈ L →
      x ≤ L.getLast h := by
  intro L
  induction L with
  | nil => intro _ h; exact absurd rfl h
  | cons a t ih =>
    intro hs h x hx
    cases t with
    | nil =>
      simp at hx
      simp [List.getLast, hx]
    | cons b t' =>
      rw [List.getLast_cons (by simp)]
      rcases List.mem_cons.mp hx with rfl | hxt
      · calc x ≤ (b :: t').getLast (by simp) := by
              apply List.rel_of_sorted_cons hs
              exact List.getLast_mem _
        _ = (b :: t').getLast (by simp) := rfl
      · exact ih hs.of_cons (by simp) x hxt

/-- The last element of the sorted iteration list is the numerically
highest iteration number found. -/
lemma getIterNumberLast_max (found : List ℤ) (hne : found ≠ []) :
    ∃ m, getIterNumberLast found = some m ∧ m ∈ found ∧
      ∀ x ∈ found, x ≤ m := by
  unfold getIterNumberLast
  rw [if_neg (by simpa using hne)]
  have hperm := List.perm_insertionSort (· ≤ ·) found
  have hsort := List.sorted_insertionSort (· ≤ ·) found
  have hLne : found.insertionSort (· ≤ ·) ≠ [] := by
    intro h0
    apply hne
    have := hperm.length_eq
    rw [h0] at this
    exact List.length_eq_zero.mp this.symm
  refine ⟨(found.insertionSort (· ≤ ·)).getLast hLne, ?_, ?_, ?_⟩
  · exact List.getLast?_eq_getLast _ hLne
  · exact hperm.mem_iff.mp (List.getLast_mem hLne)
  · intro x hx
    exact sorted_le_getLast _ hsort hLne x (hperm.mem_iff.mpr hx)

lemma allItersN_head (initIter finalIter : ℤ) (h : initIter < finalIter) :
    (allItersN initIter finalIter).head? = some initIter := by
  unfold allItersN
  obtain ⟨n, hn⟩ : ∃ n, (finalIter - initIter).toNat = n + 1 :=
    ⟨(finalIter - initIter).toNat - 1, by omega⟩
  rw [hn, List.range_succ_eq_map]
  simp

/-! ### Claim C9: continuation of a prior run -/

/-- Claim C9: the continue-from iteration resolves to the numerically
highest iteration found among the prior run's parameter filenames (for
`'last'`, i.e. `choice = none`) or to the explicit number given
(`choice = some k`); the continue step links — it never copies — the prior
run's particle stack and the resolved iteration's parameter table and
class-average stack; and the new run's first executed iteration is the
resolved iteration plus one. -/
theorem continueResolution_spec (found : List ℤ) (hne : found ≠ [])
    (choice : Option ℤ) (numIters : ℤ) (hpos : 0 < numIters) :
    ∃ m, getIterNumberLast found = some m ∧ m ∈ found ∧
      (∀ x ∈ found, x ≤ m) ∧
      resolveInitIter choice m = choice.getD m + 1 ∧
      continueStepActions (resolveInitIter choice m) =
        [FsAction.link FileRef.run_stack,
         FsAction.link (FileRef.iter_par (choice.getD m)),
         FsAction.link (FileRef.iter_cls (choice.getD m))] ∧
      (∀ a ∈ continueStepActions (resolveInitIter choice m),
        ∃ f, a = FsAction.link f) ∧
      (allItersN (resolveInitIter choice m)
          (resolveInitIter choice m + numIters)).head? =
        some (choice.getD m + 1) := by
  obtain ⟨m, hml, hmem, hmax⟩ := getIterNumberLast_max found hne
  have hres : resolveInitIter choice m = choice.getD m + 1 := by
    cases choice <;> rfl
  refine ⟨m, hml, hmem, hmax, hres, ?_, ?_, ?_⟩
  · rw [hres]
    simp [continueStepActions]
  · intro a ha
    simp only [continueStepActions, List.mem_cons, List.not_mem_nil,
      or_false] at ha
    rcases ha with rfl | rfl | rfl
    · exact ⟨_, rfl⟩
    · exact ⟨_, rfl⟩
    · exact ⟨_, rfl⟩
  · rw [hres, allItersN_head _ _ (by omega)]

/-- Witness for C9: prior run with parameter files for iterations 3, 1, 2,
continuing from `'last'` with 20 further iterations. -/
theorem continueResolution_spec_witness :
    ∃ m, getIterNumberLast [3, 1, 2] = some m ∧ m ∈ ([3, 1, 2] : List ℤ) ∧
      (∀ x ∈ ([3, 1, 2] : List ℤ), x ≤ m) ∧
      resolveInitIter none m = (none : Option ℤ).getD m + 1 ∧
      continueStepActions (resolveInitIter none m) =
        [FsAction.link FileRef.run_stack,
         FsAction.link (FileRef.iter_par ((none : Option ℤ).getD m)),
         FsAction.link (FileRef.iter_cls ((none : Option ℤ).getD m))] ∧
      (∀ a ∈ continueStepActions (resolveInitIter none m),
        ∃ f, a = FsAction.link f) ∧
      (allItersN (resolveInitIter none m)
          (resolveInitIter none m + 20)).head? =
        some ((none : Option ℤ).getD m + 1) :=
  continueResolution_spec [3, 1, 2] (by decide) none 20 (by norm_num)

/-! ## Movie alignment error handling (`_processMovie`, protocol_unblur.py) -/

/-- Combined outcome of the suite inside the `try:` of `_processMovie`
(protocol_unblur.py, lines 205-246): the external `runJob` invocation, the
`moveFile` of the shifts log, and the output handling (`_extraWork`),
sequenced; `Except.error` carries the first exception raised. -/
def processMovieBody (runJobRes moveShiftsRes extraWorkRes : Except String Unit) :
    Except String Unit :=
  runJobRes.bind (fun _ => moveShiftsRes.bind (fun _ => extraWorkRes))

/-- The error line printed by the bare `except:` handler
(protocol_unblur.py, line 249). -/
def alignErrorMsg (movieFn : String) : String :=
  "ERROR: Failed to align movie " ++ movieFn ++ "\n"

/-- Model of `_processMovie` (protocol_unblur.py, lines 197-250): the whole
suite runs inside `try:`; the bare `except:` catches every exception,
prints the error line naming the movie, and the function returns normally.
The value is the list of error lines printed; the outer `Except` layer is
the exception channel seen by the caller. -/
def processMovie (movieFn : String)
    (runJobRes moveShiftsRes extraWorkRes : Except String Unit) :
    Except String (List String) :=
  match processMovieBody runJobRes moveShiftsRes extraWorkRes with
  | Except.ok _ => Except.ok []
  | Except.error _ => Except.ok [alignErrorMsg movieFn]

/-! ### Claim C10: exceptions are swallowed per movie -/

/-- Claim C10: whatever the external alignment invocation and the output
handling do, `_processMovie` returns normally (no exception reaches the
caller, so the pipeline continues past the failed movie), and when the
body raised it only logs the error line naming the movie. -/
theorem processMovie_no_raise (movieFn : String)
    (runJobRes moveShiftsRes extraWorkRes : Except String Unit) :
    (∃ log, processMovie movieFn runJobRes moveShiftsRes extraWorkRes =
        Except.ok log) ∧
    (∀ e, processMovieBody runJobRes moveShiftsRes extraWorkRes =
        Except.error e →
      processMovie movieFn runJobRes moveShiftsRes extraWorkRes =
        Except.ok [alignErrorMsg movieFn]) := by
  constructor
  · unfold processMovie
    cases hb : processMovieBody runJobRes moveShiftsRes extraWorkRes with
    | ok _ => exact ⟨[], rfl⟩
    | error _ => exact ⟨[alignErrorMsg movieFn], rfl⟩
  · intro e he
    unfold processMovie
    rw [he]

/-- Witness for C10: the external process fails for `movie_01.mrcs`; the
step returns normally with just the error line. -/
theorem processMovie_no_raise_witness :
    processMovie "movie_01.mrcs" (Except.error "non-zero exit")
        (Except.ok ()) (Except.ok ()) =
      Except.ok [alignErrorMsg "movie_01.mrcs"] :=
  (processMovie_no_raise "movie_01.mrcs" (Except.error "non-zero exit")
    (Except.ok ()) (Except.ok ())).2 "non-zero exit" rfl

end Cistem
